import Mathlib

/-!
Shallow embedding of the cognitive-core subsystem of this repository:
the hypergraph substrate (`HypergraphSubstrate.cpp` / `.h`) and the
cognitive kernel (`CognitiveKernel.cpp` / `.h`).

Modelling conventions:
- `std::unordered_map` tables become association lists with string keys;
  the operations below mirror the C++ member functions entry by entry.
- `double` values become `ℚ` (the algorithms use only field operations
  with exact constants such as `0.7` and `1.2`).
- `std::hash<std::string>` is implementation defined, so the resonance
  functions are parametric in a hash function `String → Nat`.
- Functions that throw (`validate_edge_consistency` and its callers)
  return `Except String`.
- The substrate is modelled together with the in-memory reference
  persistence strategy (`MemorySubstratePersistence`), which is what the
  default constructor installs: `pnodes`/`pedges` are its backing store.
-/

namespace Cognitive

/-- Lookup in an association-list map (mirrors `unordered_map::find`). -/
def mapFind {α : Type} (m : List (String × α)) (k : String) : Option α :=
  match m with
  | [] => none
  | (k2, v) :: rest => if k2 = k then some v else mapFind rest k

/-- Key-presence test (mirrors `find(...) != end()`). -/
def mapContains {α : Type} (m : List (String × α)) (k : String) : Bool :=
  (mapFind m k).isSome

/-- Insert-or-overwrite (mirrors `m[k] = v`). -/
def mapInsert {α : Type} (m : List (String × α)) (k : String) (v : α) :
    List (String × α) :=
  match m with
  | [] => [(k, v)]
  | (k2, v2) :: rest =>
      if k2 = k then (k, v) :: rest else (k2, v2) :: mapInsert rest k v

/-- Erase by key (mirrors `m.erase(k)`); removes the first matching entry. -/
def mapErase {α : Type} (m : List (String × α)) (k : String) :
    List (String × α) :=
  match m with
  | [] => []
  | (k2, v2) :: rest =>
      if k2 = k then rest else (k2, v2) :: mapErase rest k

/-- In-place modification of the value stored at `k`, if present
(mirrors `it = m.find(k); if (it != end()) mutate(it->second)`). -/
def mapUpdate {α : Type} (m : List (String × α)) (k : String) (f : α → α) :
    List (String × α) :=
  match m with
  | [] => []
  | (k2, v) :: rest =>
      if k2 = k then (k2, f v) :: rest else (k2, v) :: mapUpdate rest k f

/-- `DeepTreeEcho` identity structure (CognitiveKernel.h). -/
structure DeepTreeEcho where
  identity_signature : String
  resonance_frequency : Nat
  echo_patterns : List String
  cognitive_weight : ℚ
deriving DecidableEq

/-- `HyperNode` (HypergraphSubstrate.h). -/
structure HyperNode where
  id : String
  label : String
  attributes : List (String × String)
  echo_signature : DeepTreeEcho
  activation_level : ℚ
deriving DecidableEq

/-- `HyperEdge`; `connected_nodes` is an `unordered_set`, modelled as a
list queried only through membership. -/
structure HyperEdge where
  id : String
  label : String
  connected_nodes : List String
  attributes : List (String × String)
  strength : ℚ
deriving DecidableEq

/-- The live tables of a `HypergraphSubstrate` together with the backing
store of its `MemorySubstratePersistence` strategy. -/
structure Substrate where
  nodes : List (String × HyperNode)
  edges : List (String × HyperEdge)
  pnodes : List (String × HyperNode)
  pedges : List (String × HyperEdge)
deriving DecidableEq

/-- The substrate produced by the default constructor. -/
def emptySubstrate : Substrate := ⟨[], [], [], []⟩

/-- `HypergraphSubstrate::add_node`. -/
def add_node (s : Substrate) (n : HyperNode) : Bool × Substrate :=
  if mapContains s.nodes n.id then (false, s)
  else (true, { s with nodes := mapInsert s.nodes n.id n,
                       pnodes := mapInsert s.pnodes n.id n })

/-- `HypergraphSubstrate::update_node`. -/
def update_node (s : Substrate) (n : HyperNode) : Bool × Substrate :=
  if mapContains s.nodes n.id then
    (true, { s with nodes := mapInsert s.nodes n.id n,
                    pnodes := mapInsert s.pnodes n.id n })
  else (false, s)

/-- `HypergraphSubstrate::remove_node`: collect every edge whose
`connected_nodes` contain `id`, erase each from the live edge table and
from the persistence strategy, then erase the node (mirroring the
removal to persistence when it was present). -/
def remove_node (s : Substrate) (id : String) : Bool × Substrate :=
  let edges_to_remove :=
    (s.edges.filter (fun p => p.2.connected_nodes.contains id)).map Prod.fst
  let edges1 := edges_to_remove.foldl mapErase s.edges
  let pedges1 := edges_to_remove.foldl mapErase s.pedges
  let removed := mapContains s.nodes id
  let nodes1 := mapErase s.nodes id
  let pnodes1 := if removed then mapErase s.pnodes id else s.pnodes
  (removed, { nodes := nodes1, edges := edges1,
              pnodes := pnodes1, pedges := pedges1 })

/-- `HypergraphSubstrate::node_exists`. -/
def node_exists (s : Substrate) (id : String) : Bool :=
  mapContains s.nodes id

/-- `HypergraphSubstrate::edge_exists`. -/
def edge_exists (s : Substrate) (id : String) : Bool :=
  mapContains s.edges id

/-- `HypergraphSubstrate::validate_edge_consistency`: throws
`std::invalid_argument` at the first member id missing from the node
table. -/
def validate_edge_consistency (s : Substrate) (e : HyperEdge) :
    Except String Unit :=
  match e.connected_nodes.find? (fun nid => !(mapContains s.nodes nid)) with
  | some nid => .error ("Edge references non-existent node: " ++ nid)
  | none => .ok ()

/-- `HypergraphSubstrate::add_edge`: duplicate id returns `false`;
otherwise referential-integrity validation may throw; on success the
edge is stored and mirrored to persistence. -/
def add_edge (s : Substrate) (e : HyperEdge) :
    Except String (Bool × Substrate) :=
  if mapContains s.edges e.id then .ok (false, s)
  else
    match validate_edge_consistency s e with
    | .error msg => .error msg
    | .ok _ => .ok (true, { s with edges := mapInsert s.edges e.id e,
                                   pedges := mapInsert s.pedges e.id e })

/-- `HypergraphSubstrate::update_edge`. -/
def update_edge (s : Substrate) (e : HyperEdge) :
    Except String (Bool × Substrate) :=
  if mapContains s.edges e.id then
    match validate_edge_consistency s e with
    | .error msg => .error msg
    | .ok _ => .ok (true, { s with edges := mapInsert s.edges e.id e,
                                   pedges := mapInsert s.pedges e.id e })
  else .ok (false, s)

/-- `HypergraphSubstrate::remove_edge`. -/
def remove_edge (s : Substrate) (id : String) : Bool × Substrate :=
  let removed := mapContains s.edges id
  let pedges1 := if removed then mapErase s.pedges id else s.pedges
  (removed, { s with edges := mapErase s.edges id, pedges := pedges1 })

/-- `std::set` insertion used by `get_connected_nodes`: append if absent. -/
def setInsert (l : List String) (x : String) : List String :=
  if l.contains x then l else l ++ [x]

/-- `HypergraphSubstrate::get_connected_nodes`: union over every edge
containing `id` of its other members, deduplicated. -/
def get_connected_nodes (edges : List (String × HyperEdge)) (id : String) :
    List String :=
  edges.foldl
    (fun acc p =>
      if p.2.connected_nodes.contains id then
        p.2.connected_nodes.foldl
          (fun a nid => if nid ≠ id then setInsert a nid else a) acc
      else acc)
    []

/-- `HypergraphSubstrate::node_count`. -/
def node_count (s : Substrate) : Nat := s.nodes.length

/-- `HypergraphSubstrate::edge_count`. -/
def edge_count (s : Substrate) : Nat := s.edges.length

/-- Inner double loop of `calculate_clustering_coefficient`: for each
neighbor `x`, count the later neighbors that appear in `x`'s
connected-node set (the value the loop at HypergraphSubstrate.cpp:382-389
computes; see the caveat on `calculate_clustering_coefficient`). -/
def countClosedPairs (edges : List (String × HyperEdge)) :
    List String → Nat
  | [] => 0
  | x :: rest =>
      (rest.filter (fun y => (get_connected_nodes edges x).contains y)).length
        + countClosedPairs edges rest

/-- The value `HypergraphSubstrate::calculate_clustering_coefficient`
attempts to compute. Caveat: the source function as written never
produces it — it acquires the non-recursive `substrate_mutex_`
(HypergraphSubstrate.cpp:371) and then calls the public
`get_connected_nodes` (lines 373 and 384), which re-acquires the same
mutex (line 238); re-locking an owned `std::mutex` is undefined
behavior and self-deadlocks on mainstream implementations, before even
the `< 2` check runs. Locks are outside this shallow embedding, so
this definition is the lock-free core computation of the body — the
locked-wrapper-over-unlocked-core restructuring the repository's
design notes themselves prescribe to remove exactly this re-entrant
acquisition. -/
def calculate_clustering_coefficient (s : Substrate) (id : String) : ℚ :=
  let neighbors := get_connected_nodes s.edges id
  if neighbors.length < 2 then 0
  else
    let possible_edges := neighbors.length * (neighbors.length - 1) / 2
    let actual_edges := countClosedPairs s.edges neighbors
    (actual_edges : ℚ) / (possible_edges : ℚ)

/-- `HypergraphSubstrate::calculate_substrate_density`. -/
def calculate_substrate_density (s : Substrate) : ℚ :=
  if s.nodes.length < 2 then 0
  else
    let possible_connections := s.nodes.length * (s.nodes.length - 1) / 2
    (s.edges.length : ℚ) / (possible_connections : ℚ)

/-- `HypergraphSubstrate::save_substrate`: push every live node and edge
to the persistence strategy (memory persistence upserts and always
succeeds). -/
def save_substrate (s : Substrate) : Bool × Substrate :=
  (true,
   { s with
     pnodes := s.nodes.foldl (fun m p => mapInsert m p.1 p.2) s.pnodes,
     pedges := s.edges.foldl (fun m p => mapInsert m p.1 p.2) s.pedges })

/-- `HypergraphSubstrate::load_substrate`: clear the live tables, then
reload every id enumerated by the persistence strategy, skipping ids
whose load fails. -/
def load_substrate (s : Substrate) : Bool × Substrate :=
  let node_ids := s.pnodes.map Prod.fst
  let nodes1 := node_ids.foldl
    (fun m nid => match mapFind s.pnodes nid with
      | some n => mapInsert m nid n
      | none => m) []
  let edge_ids := s.pedges.map Prod.fst
  let edges1 := edge_ids.foldl
    (fun m eid => match mapFind s.pedges eid with
      | some e => mapInsert m eid e
      | none => m) []
  (true, { s with nodes := nodes1, edges := edges1 })

/-- `HypergraphSubstrate::clear_substrate`: empties the live tables and,
because the active strategy is `MemorySubstratePersistence` (the
`dynamic_cast` succeeds), empties its backing store as well. -/
def clear_substrate (s : Substrate) : Substrate :=
  { s with nodes := [], edges := [], pnodes := [], pedges := [] }

/-- One public mutating substrate operation. -/
inductive SubOp where
  | addNode (n : HyperNode)
  | updateNode (n : HyperNode)
  | removeNode (id : String)
  | addEdge (e : HyperEdge)
  | updateEdge (e : HyperEdge)
  | removeEdge (id : String)

/-- Apply one operation; an operation that throws leaves the substrate
unchanged (the exception propagates before any mutation). -/
def applyOp (s : Substrate) (op : SubOp) : Substrate :=
  match op with
  | .addNode n => (add_node s n).2
  | .updateNode n => (update_node s n).2
  | .removeNode id => (remove_node s id).2
  | .addEdge e =>
      match add_edge s e with
      | .ok r => r.2
      | .error _ => s
  | .updateEdge e =>
      match update_edge s e with
      | .ok r => r.2
      | .error _ => s
  | .removeEdge id => (remove_edge s id).2

/-- Run a sequence of operations from the empty substrate. -/
def runOps (ops : List SubOp) : Substrate :=
  ops.foldl applyOp emptySubstrate

/-- Well-formedness that every C++ `unordered_map` guarantees: the key
lists of all four tables have no duplicates. -/
def WF (s : Substrate) : Prop :=
  (s.nodes.map Prod.fst).Nodup ∧ (s.edges.map Prod.fst).Nodup ∧
  (s.pnodes.map Prod.fst).Nodup ∧ (s.pedges.map Prod.fst).Nodup

instance (s : Substrate) : Decidable (WF s) := by
  unfold WF; infer_instance

/-- Referential integrity: every member id of every stored edge is a key
of the node table. -/
def EdgeConsistent (s : Substrate) : Prop :=
  ∀ p ∈ s.edges, ∀ nid ∈ p.2.connected_nodes, mapContains s.nodes nid = true

instance (s : Substrate) : Decidable (EdgeConsistent s) := by
  unfold EdgeConsistent; infer_instance

/-! ### Activation propagation (BFS over hyperedge co-membership) -/

/-- Concatenation of every edge's member list. -/
def allMembers (edges : List (String × HyperEdge)) : List String :=
  edges.foldr (fun p acc => p.2.connected_nodes ++ acc) []

/-- Innermost loop of `get_reachable_nodes`: scan one edge's member set
and collect members that are neither the current node nor already
visited; each collected member is marked visited at once (the C++
inserts into `visited` before pushing). -/
def freshMembers (members : List String) (cur : String)
    (visited : List String) : List String :=
  match members with
  | [] => []
  | nb :: rest =>
      if nb ≠ cur ∧ nb ∉ visited then
        nb :: freshMembers rest cur (nb :: visited)
      else freshMembers rest cur visited

/-- Middle loop of `get_reachable_nodes`: scan every edge whose members
contain the current node. -/
def discoverAll (edges : List (String × HyperEdge)) (cur : String)
    (visited : List String) : List String :=
  match edges with
  | [] => []
  | p :: rest =>
      if p.2.connected_nodes.contains cur then
        let f := freshMembers p.2.connected_nodes cur visited
        f ++ discoverAll rest cur (f ++ visited)
      else discoverAll rest cur visited

/-- The BFS while-loop of `get_reachable_nodes`, with explicit fuel:
each iteration pops one queue entry, and a node enters the queue only
when first marked visited, so `1 + (allMembers edges).length` pops
bound the whole run (proved in `bfs_phase1`/`get_reachable_nodes_eq`). -/
def bfsLoop (edges : List (String × HyperEdge)) (max_hops : Nat) :
    Nat → List (String × Nat) → List String → List String → List String
  | 0, _, _, reachable => reachable
  | _ + 1, [], _, reachable => reachable
  | fuel + 1, (cur, hops) :: queue, visited, reachable =>
      if max_hops ≤ hops then
        bfsLoop edges max_hops fuel queue visited reachable
      else
        let f := discoverAll edges cur visited
        bfsLoop edges max_hops fuel
          (queue ++ f.map (fun x => (x, hops + 1)))
          (f ++ visited) (reachable ++ f)

/-- `HypergraphSubstrate::get_reachable_nodes`. -/
def get_reachable_nodes (edges : List (String × HyperEdge))
    (source : String) (max_hops : Nat) : List String :=
  bfsLoop edges max_hops (1 + (allMembers edges).length)
    [(source, 0)] [source] []

/-- `HypergraphSubstrate::propagate_activation`: absent source is a
no-op; otherwise overwrite the source activation, then add
`initial_activation * 0.7` to every node reachable within 2 hops. -/
def propagate_activation (s : Substrate) (source : String) (a : ℚ) :
    Substrate :=
  match mapFind s.nodes source with
  | none => s
  | some _ =>
      let nodes1 := mapUpdate s.nodes source
        (fun n => { n with activation_level := a })
      let reachable := get_reachable_nodes s.edges source 2
      let nodes2 := reachable.foldl
        (fun m tid => mapUpdate m tid
          (fun n => { n with
            activation_level := n.activation_level + a * (7/10) })) nodes1
      { s with nodes := nodes2 }

/-- `HypergraphSubstrate::get_node_activation`. -/
def get_node_activation (s : Substrate) (id : String) : ℚ :=
  match mapFind s.nodes id with
  | some n => n.activation_level
  | none => 0

/-- Specification-side adjacency: `x` and `y` are distinct co-members
of some stored hyperedge. -/
def AdjP (edges : List (String × HyperEdge)) (x y : String) : Prop :=
  x ≠ y ∧ ∃ p ∈ edges, x ∈ p.2.connected_nodes ∧ y ∈ p.2.connected_nodes

instance (edges : List (String × HyperEdge)) (x y : String) :
    Decidable (AdjP edges x y) := by
  unfold AdjP; infer_instance

/-- Specification-side "reachable within 2 hops of hyperedge
co-membership" relation. -/
def within2B (edges : List (String × HyperEdge)) (src y : String) : Bool :=
  decide (AdjP edges src y) ||
    (decide (y ≠ src) &&
      (allMembers edges).any
        (fun m => decide (AdjP edges src m) && decide (AdjP edges m y)))

/-- Proof-side description of the hop-1-to-hop-2 phase of the BFS:
process a layer of current nodes in order, accumulating discoveries. -/
def frontier (edges : List (String × HyperEdge)) :
    List String → List String → List String
  | [], _ => []
  | x :: xs, visited =>
      let f := discoverAll edges x visited
      f ++ frontier edges xs (f ++ visited)

/-! ### The cognitive kernel -/

/-- `CognitiveState` enum (CognitiveKernel.h). -/
inductive CognitiveState where
  | DORMANT
  | AWAKENING
  | PROCESSING
  | LEARNING
  | REASONING
  | CREATING
  | REFLECTING
deriving DecidableEq

/-- The mutable state of a `CognitiveKernel`. -/
structure KernelState where
  echo_identity : DeepTreeEcho
  current_state : CognitiveState
  memory : List (String × String)
  process_counter : Nat
deriving DecidableEq

/-- `CognitiveKernel::set_cognitive_state` (the base-class transition
hook has no effect on the modelled state). -/
def set_cognitive_state (k : KernelState) (st : CognitiveState) :
    KernelState :=
  { k with current_state := st }

/-- `input_data.find(pattern) != std::string::npos`. -/
def occursIn (pat text : String) : Bool := decide (pat.data <:+: text.data)

/-- Base hash-distance score of `CognitiveKernel::calculate_resonance`,
parametric in the implementation-defined `std::hash<std::string>`. -/
def base_resonance (h : String → Nat) (identity : DeepTreeEcho)
    (input : String) : ℚ :=
  1 / (1 + |(h input : ℚ) - (h identity.identity_signature : ℚ)|
        / ((max (h input) (h identity.identity_signature) : Nat) : ℚ))

/-- Pattern factor of `calculate_resonance`: multiply by 1.2 for each
entry of `echo_patterns` occurring as a substring of the input. -/
def pattern_influence (identity : DeepTreeEcho) (input : String) : ℚ :=
  identity.echo_patterns.foldl
    (fun acc p => if occursIn p input then acc * (12/10) else acc) 1

/-- `CognitiveKernel::calculate_resonance`. -/
def calculate_resonance (h : String → Nat) (identity : DeepTreeEcho)
    (input : String) : ℚ :=
  if input = "" ∨ identity.identity_signature = "" then 0
  else base_resonance h identity input * pattern_influence identity input
        * identity.cognitive_weight

/-- The body of the try-block of `process_cognitive_signal` before the
extension hook: compute resonance and record `last_signal`,
`last_resonance` and the incremented `process_count` in memory. -/
def signal_prep (h : String → Nat) (k : KernelState) (signal : String) :
    KernelState :=
  let resonance := calculate_resonance h k.echo_identity signal
  let m1 := mapInsert k.memory "last_signal" signal
  let m2 := mapInsert m1 "last_resonance" (toString resonance)
  let m3 := mapInsert m2 "process_count" (toString (k.process_counter + 1))
  { k with memory := m3, process_counter := k.process_counter + 1 }

/-- `CognitiveKernel::process_cognitive_signal`, parametric in the
virtual `on_cognitive_process` hook; the hook may mutate the kernel
state and may fail, in which case its mutations survive but the
cognitive state is restored and the failure re-raised. -/
def process_cognitive_signal (h : String → Nat)
    (hook : String → KernelState → KernelState × Except String Unit)
    (k : KernelState) (signal : String) :
    KernelState × Except String Unit :=
  let old_state := k.current_state
  let k1 := set_cognitive_state k .PROCESSING
  let k2 := signal_prep h k1 signal
  match hook signal k2 with
  | (k3, .error e) => (set_cognitive_state k3 old_state, .error e)
  | (k3, .ok _) => (set_cognitive_state k3 .REFLECTING, .ok ())

/-! ### Concrete instances used by the test-style properties -/

/-- A bare node with the given id (all other fields defaulted). -/
def mkNode (i : String) : HyperNode :=
  { id := i, label := "", attributes := [],
    echo_signature := ⟨"", 0, [], 1⟩, activation_level := 0 }

/-- A bare edge with the given id and member set. -/
def mkEdge (i : String) (ms : List String) : HyperEdge :=
  { id := i, label := "", connected_nodes := ms, attributes := [],
    strength := 1 }

/-- Nodes {1,2,3} with edges e1={1,2}, e2={1,3}, e3={2,3}. -/
def triangleOps : List SubOp :=
  [.addNode (mkNode "1"), .addNode (mkNode "2"), .addNode (mkNode "3"),
   .addEdge (mkEdge "e1" ["1", "2"]), .addEdge (mkEdge "e2" ["1", "3"]),
   .addEdge (mkEdge "e3" ["2", "3"])]

def triangleS : Substrate := runOps triangleOps

/-- The node of the repository's own persistence round-trip test. -/
def persistNode : HyperNode :=
  { id := "node1", label := "Persistent Node",
    attributes := [("key", "value")],
    echo_signature := ⟨"", 0, [], 1⟩, activation_level := 0 }

/-- The substrate of the repository's own persistence round-trip test:
one node "node1" (label "Persistent Node", attribute key=value) and one
edge "edge1" with member {node1}. -/
def persistS : Substrate :=
  runOps [.addNode persistNode, .addEdge (mkEdge "edge1" ["node1"])]

/-- Three nodes A, B, C and the three 2-member edges of a complete
triangle. -/
def triangleABC : Substrate :=
  runOps
    [.addNode (mkNode "nodeA"), .addNode (mkNode "nodeB"),
     .addNode (mkNode "nodeC"),
     .addEdge (mkEdge "edgeAB" ["nodeA", "nodeB"]),
     .addEdge (mkEdge "edgeBC" ["nodeB", "nodeC"]),
     .addEdge (mkEdge "edgeAC" ["nodeA", "nodeC"])]

/-- The path network of the activation-propagation test: node1 — node2
— node3 — node4. -/
def pathS : Substrate :=
  runOps
    [.addNode (mkNode "node1"), .addNode (mkNode "node2"),
     .addNode (mkNode "node3"), .addNode (mkNode "node4"),
     .addEdge (mkEdge "edge1" ["node1", "node2"]),
     .addEdge (mkEdge "edge2" ["node2", "node3"]),
     .addEdge (mkEdge "edge3" ["node3", "node4"])]

/-- A concrete stand-in for the implementation-defined
`std::hash<std::string>`. -/
def hashLen (s : String) : Nat := s.length

/-- An identity whose pattern sequence repeats the same pattern twice. -/
def dupIdent : DeepTreeEcho := ⟨"b", 0, ["a", "a"], 1⟩

/-- An identity with two distinct patterns. -/
def patIdent : DeepTreeEcho := ⟨"ab", 0, ["x", "y"], 1⟩

/-! ### Lemmas about the association-list map operations -/

theorem mapContains_iff_mem {α : Type} (m : List (String × α)) (k : String) :
    mapContains m k = true ↔ k ∈ m.map Prod.fst := by
  induction m with
  | nil => simp [mapContains, mapFind]
  | cons p m ih =>
    obtain ⟨k2, v⟩ := p
    by_cases h : k2 = k
    · subst h; simp [mapContains, mapFind]
    · have hstep : mapContains ((k2, v) :: m) k = mapContains m k := by
        simp [mapContains, mapFind, if_neg h]
      rw [hstep, ih]
      have hk : k ≠ k2 := fun hh => h hh.symm
      simp [hk]

theorem mapContains_false_iff {α : Type} (m : List (String × α)) (k : String) :
    mapContains m k = false ↔ k ∉ m.map Prod.fst := by
  rw [← Bool.not_eq_true, not_iff_not]
  exact mapContains_iff_mem m k

theorem mapFind_eq_none_iff {α : Type} (m : List (String × α)) (k : String) :
    mapFind m k = none ↔ k ∉ m.map Prod.fst := by
  rw [← mapContains_false_iff]
  unfold mapContains
  cases mapFind m k <;> simp

theorem mapInsert_map_fst_of_contains {α : Type} (m : List (String × α))
    (k : String) (v : α) (h : mapContains m k = true) :
    (mapInsert m k v).map Prod.fst = m.map Prod.fst := by
  induction m with
  | nil => simp [mapContains, mapFind] at h
  | cons p m ih =>
    obtain ⟨k2, v2⟩ := p
    by_cases hk : k2 = k
    · subst hk; simp [mapInsert]
    · simp only [mapContains, mapFind, if_neg hk] at h
      simp [mapInsert, if_neg hk, ih h]

theorem mapInsert_map_fst_of_not_contains {α : Type} (m : List (String × α))
    (k : String) (v : α) (h : mapContains m k = false) :
    (mapInsert m k v).map Prod.fst = m.map Prod.fst ++ [k] := by
  induction m with
  | nil => simp [mapInsert]
  | cons p m ih =>
    obtain ⟨k2, v2⟩ := p
    by_cases hk : k2 = k
    · subst hk; simp [mapContains, mapFind] at h
    · simp only [mapContains, mapFind, if_neg hk] at h
      simp [mapInsert, if_neg hk, ih h]

theorem mapFind_mapInsert_self {α : Type} (m : List (String × α))
    (k : String) (v : α) : mapFind (mapInsert m k v) k = some v := by
  induction m with
  | nil => simp [mapInsert, mapFind]
  | cons p m ih =>
    obtain ⟨k2, v2⟩ := p
    by_cases hk : k2 = k
    · subst hk; simp [mapInsert, mapFind]
    · simp [mapInsert, if_neg hk, mapFind, ih]

theorem mapFind_mapInsert_ne {α : Type} (m : List (String × α))
    (k j : String) (v : α) (h : j ≠ k) :
    mapFind (mapInsert m k v) j = mapFind m j := by
  induction m with
  | nil => simp [mapInsert, mapFind, if_neg (Ne.symm h)]
  | cons p m ih =>
    obtain ⟨k2, v2⟩ := p
    by_cases hk : k2 = k
    · subst hk; simp [mapInsert, mapFind, if_neg (Ne.symm h)]
    · by_cases hj : k2 = j
      · subst hj; simp [mapInsert, if_neg hk, mapFind]
      · simp [mapInsert, if_neg hk, mapFind, if_neg hj, ih]

theorem mapContains_mapInsert {α : Type} (m : List (String × α))
    (k j : String) (v : α) :
    mapContains (mapInsert m k v) j = true ↔ j = k ∨ mapContains m j = true := by
  by_cases h : j = k
  · subst h; simp [mapContains, mapFind_mapInsert_self]
  · unfold mapContains
    rw [mapFind_mapInsert_ne m k j v h]
    simp [h, mapContains]

theorem mapErase_sublist {α : Type} (m : List (String × α)) (k : String) :
    (mapErase m k).Sublist m := by
  induction m with
  | nil => simp [mapErase]
  | cons p m ih =>
    obtain ⟨k2, v2⟩ := p
    by_cases hk : k2 = k
    · simp only [mapErase, if_pos hk]
      exact List.sublist_cons_self _ _
    · simp only [mapErase, if_neg hk]
      exact ih.cons₂ (k2, v2)

theorem mapErase_map_fst_sublist {α : Type} (m : List (String × α))
    (k : String) : ((mapErase m k).map Prod.fst).Sublist (m.map Prod.fst) :=
  (mapErase_sublist m k).map Prod.fst

theorem mapFind_mapErase_ne {α : Type} (m : List (String × α))
    (k j : String) (h : j ≠ k) :
    mapFind (mapErase m k) j = mapFind m j := by
  induction m with
  | nil => simp [mapErase]
  | cons p m ih =>
    obtain ⟨k2, v2⟩ := p
    by_cases hk : k2 = k
    · subst hk
      have h1 : mapErase ((k2, v2) :: m) k2 = m := by simp [mapErase]
      rw [h1]
      simp [mapFind, if_neg (Ne.symm h)]
    · by_cases hj : k2 = j
      · subst hj; simp [mapErase, if_neg hk, mapFind]
      · simp [mapErase, if_neg hk, mapFind, if_neg hj, ih]

theorem mapFind_mapErase_self {α : Type} (m : List (String × α)) (k : String)
    (hnd : (m.map Prod.fst).Nodup) : mapFind (mapErase m k) k = none := by
  induction m with
  | nil => simp [mapErase, mapFind]
  | cons p m ih =>
    obtain ⟨k2, v2⟩ := p
    simp only [List.map_cons, List.nodup_cons] at hnd
    by_cases hk : k2 = k
    · subst hk
      simp only [mapErase, if_pos rfl]
      rw [mapFind_eq_none_iff]
      exact hnd.1
    · simp [mapErase, if_neg hk, mapFind, if_neg hk, ih hnd.2]

theorem mapFind_none_of_sublist {α : Type} {m' m : List (String × α)}
    (hsub : m'.Sublist m) (k : String) (h : mapFind m k = none) :
    mapFind m' k = none := by
  rw [mapFind_eq_none_iff] at h ⊢
  exact fun hmem => h ((hsub.map Prod.fst).subset hmem)

theorem foldl_mapErase_sublist {α : Type} (ids : List String)
    (m : List (String × α)) : (ids.foldl mapErase m).Sublist m := by
  induction ids generalizing m with
  | nil => simp
  | cons j ids ih =>
    exact (ih (mapErase m j)).trans (mapErase_sublist m j)

theorem mapFind_foldl_mapErase_of_not_mem {α : Type} (ids : List String)
    (m : List (String × α)) (j : String) (h : j ∉ ids) :
    mapFind (ids.foldl mapErase m) j = mapFind m j := by
  induction ids generalizing m with
  | nil => rfl
  | cons i ids ih =>
    simp only [List.mem_cons, not_or] at h
    rw [List.foldl_cons, ih _ h.2, mapFind_mapErase_ne m i j h.1]

theorem mapFind_foldl_mapErase_of_mem {α : Type} (ids : List String)
    (m : List (String × α)) (j : String)
    (hnd : (m.map Prod.fst).Nodup) (h : j ∈ ids) :
    mapFind (ids.foldl mapErase m) j = none := by
  induction ids generalizing m with
  | nil => simp at h
  | cons i ids ih =>
    rw [List.foldl_cons]
    by_cases hji : j = i
    · subst hji
      exact mapFind_none_of_sublist (foldl_mapErase_sublist ids _) j
        (mapFind_mapErase_self m j hnd)
    · rcases List.mem_cons.1 h with h1 | h2
      · exact absurd h1 hji
      · exact ih _ (hnd.sublist (mapErase_map_fst_sublist m i)) h2

theorem foldl_mapErase_cons_of_not_mem {α : Type} (k : String) (v : α)
    (m : List (String × α)) (ids : List String) (h : k ∉ ids) :
    ids.foldl mapErase ((k, v) :: m) = (k, v) :: ids.foldl mapErase m := by
  induction ids generalizing m with
  | nil => rfl
  | cons j ids ih =>
    simp only [List.mem_cons, not_or] at h
    rw [List.foldl_cons, List.foldl_cons]
    have hstep : mapErase ((k, v) :: m) j = (k, v) :: mapErase m j := by
      simp [mapErase, if_neg h.1]
    rw [hstep, ih _ h.2]

theorem cascade_eq_filter {α : Type} (m : List (String × α))
    (P : String × α → Bool) (hnd : (m.map Prod.fst).Nodup) :
    ((m.filter P).map Prod.fst).foldl mapErase m
      = m.filter (fun p => !(P p)) := by
  induction m with
  | nil => rfl
  | cons p m ih =>
    obtain ⟨k, v⟩ := p
    simp only [List.map_cons, List.nodup_cons] at hnd
    by_cases hP : P (k, v) = true
    · rw [List.filter_cons_of_pos hP]
      simp only [List.map_cons, List.foldl_cons]
      have h1 : mapErase ((k, v) :: m) k = m := by simp [mapErase]
      rw [h1, ih hnd.2, List.filter_cons_of_neg (by simp [hP])]
    · rw [List.filter_cons_of_neg hP]
      have hk : k ∉ (m.filter P).map Prod.fst := fun hmem => by
        obtain ⟨q, hq, hq2⟩ := List.mem_map.1 hmem
        exact hnd.1 (hq2 ▸ List.mem_map.2 ⟨q, (List.mem_filter.1 hq).1, rfl⟩)
      rw [foldl_mapErase_cons_of_not_mem _ _ _ _ hk, ih hnd.2,
          List.filter_cons_of_pos (by simp [hP])]

theorem mapUpdate_map_fst {α : Type} (m : List (String × α)) (k : String)
    (f : α → α) : (mapUpdate m k f).map Prod.fst = m.map Prod.fst := by
  induction m with
  | nil => rfl
  | cons p m ih =>
    obtain ⟨k2, v⟩ := p
    by_cases hk : k2 = k
    · simp [mapUpdate, hk]
    · simp [mapUpdate, if_neg hk, ih]

theorem mapFind_mapUpdate_self {α : Type} (m : List (String × α))
    (k : String) (f : α → α) :
    mapFind (mapUpdate m k f) k = (mapFind m k).map f := by
  induction m with
  | nil => rfl
  | cons p m ih =>
    obtain ⟨k2, v⟩ := p
    by_cases hk : k2 = k
    · subst hk; simp [mapUpdate, mapFind]
    · simp [mapUpdate, if_neg hk, mapFind, if_neg hk, ih]

theorem mapFind_mapUpdate_ne {α : Type} (m : List (String × α))
    (k j : String) (f : α → α) (h : j ≠ k) :
    mapFind (mapUpdate m k f) j = mapFind m j := by
  induction m with
  | nil => rfl
  | cons p m ih =>
    obtain ⟨k2, v⟩ := p
    by_cases hk : k2 = k
    · subst hk
      simp only [mapUpdate, if_pos rfl, mapFind]
      rw [if_neg (Ne.symm h), if_neg (Ne.symm h)]
    · by_cases hj : k2 = j
      · subst hj; simp [mapUpdate, if_neg hk, mapFind]
      · simp [mapUpdate, if_neg hk, mapFind, if_neg hj, ih]

theorem nodup_mapInsert {α : Type} (m : List (String × α)) (k : String)
    (v : α) (hnd : (m.map Prod.fst).Nodup) :
    ((mapInsert m k v).map Prod.fst).Nodup := by
  by_cases h : mapContains m k = true
  · rwa [mapInsert_map_fst_of_contains m k v h]
  · rw [mapInsert_map_fst_of_not_contains m k v (Bool.eq_false_iff.2 h)]
    have : k ∉ m.map Prod.fst := (mapContains_false_iff m k).1
      (Bool.eq_false_iff.2 h)
    simp [List.nodup_append, hnd, this]

theorem mem_mapInsert {α : Type} (m : List (String × α)) (k : String)
    (v : α) (p : String × α) (h : p ∈ mapInsert m k v) :
    p = (k, v) ∨ p ∈ m := by
  induction m with
  | nil => simpa [mapInsert] using h
  | cons q m ih =>
    obtain ⟨k2, v2⟩ := q
    by_cases hk : k2 = k
    · subst hk
      rcases List.mem_cons.1 (by simpa [mapInsert] using h) with h1 | h1
      · exact Or.inl h1
      · exact Or.inr (List.mem_cons_of_mem _ h1)
    · rcases List.mem_cons.1 (by simpa [mapInsert, if_neg hk] using h) with h1 | h1
      · exact Or.inr (h1 ▸ List.mem_cons_self _ _)
      · rcases ih h1 with h2 | h2
        · exact Or.inl h2
        · exact Or.inr (List.mem_cons_of_mem _ h2)

theorem listContains_iff (l : List String) (a : String) :
    l.contains a = true ↔ a ∈ l := by
  induction l with
  | nil => simp
  | cons x l ih => simp [List.contains] at ih ⊢

theorem nodup_mapErase {α : Type} (m : List (String × α)) (k : String)
    (hnd : (m.map Prod.fst).Nodup) : ((mapErase m k).map Prod.fst).Nodup :=
  hnd.sublist (mapErase_map_fst_sublist m k)

theorem nodup_foldl_mapErase {α : Type} (ids : List String)
    (m : List (String × α)) (hnd : (m.map Prod.fst).Nodup) :
    ((ids.foldl mapErase m).map Prod.fst).Nodup :=
  hnd.sublist ((foldl_mapErase_sublist ids m).map Prod.fst)

/-! ### Preservation of well-formedness and referential integrity -/

theorem wf_applyOp (s : Substrate) (op : SubOp) (h : WF s) :
    WF (applyOp s op) := by
  obtain ⟨hn, he, hpn, hpe⟩ := h
  cases op with
  | addNode n =>
    by_cases hc : mapContains s.nodes n.id = true
    · simp [applyOp, add_node, hc, WF, hn, he, hpn, hpe]
    · simp only [applyOp, add_node, Bool.not_eq_true] at *
      simp [hc, WF, he, hpn, nodup_mapInsert _ _ _ hn,
            nodup_mapInsert _ _ _ hpn, hpe]
  | updateNode n =>
    by_cases hc : mapContains s.nodes n.id = true
    · simp [applyOp, update_node, hc, WF, he, hpe,
            nodup_mapInsert _ _ _ hn, nodup_mapInsert _ _ _ hpn]
    · simp only [Bool.not_eq_true] at hc
      simp [applyOp, update_node, hc, WF, hn, he, hpn, hpe]
  | removeNode id =>
    refine ⟨?_, ?_, ?_, ?_⟩
    · exact nodup_mapErase _ _ hn
    · exact nodup_foldl_mapErase _ _ he
    · by_cases hc : mapContains s.nodes id = true
      · simp only [remove_node, applyOp, hc]
        simpa using nodup_mapErase _ id hpn
      · simp only [Bool.not_eq_true] at hc
        simp only [remove_node, applyOp, hc]
        simpa using hpn
    · exact nodup_foldl_mapErase _ _ hpe
  | addEdge e =>
    by_cases hc : mapContains s.edges e.id = true
    · simp [applyOp, add_edge, hc, WF, hn, he, hpn, hpe]
    · simp only [Bool.not_eq_true] at hc
      cases hv : validate_edge_consistency s e with
      | error msg => simp [applyOp, add_edge, hc, hv, WF, hn, he, hpn, hpe]
      | ok u =>
        simp [applyOp, add_edge, hc, hv, WF, hn, hpn,
              nodup_mapInsert _ _ _ he, nodup_mapInsert _ _ _ hpe]
  | updateEdge e =>
    by_cases hc : mapContains s.edges e.id = true
    · cases hv : validate_edge_consistency s e with
      | error msg => simp [applyOp, update_edge, hc, hv, WF, hn, he, hpn, hpe]
      | ok u =>
        simp [applyOp, update_edge, hc, hv, WF, hn, hpn,
              nodup_mapInsert _ _ _ he, nodup_mapInsert _ _ _ hpe]
    · simp only [Bool.not_eq_true] at hc
      simp [applyOp, update_edge, hc, WF, hn, he, hpn, hpe]
  | removeEdge id =>
    refine ⟨by simpa [applyOp, remove_edge] using hn, ?_, ?_, ?_⟩
    · simpa [applyOp, remove_edge] using nodup_mapErase _ id he
    · simpa [applyOp, remove_edge] using hpn
    · by_cases hc : mapContains s.edges id = true
      · simp only [applyOp, remove_edge, hc]
        simpa using nodup_mapErase _ id hpe
      · simp only [Bool.not_eq_true] at hc
        simp only [applyOp, remove_edge, hc]
        simpa using hpe

theorem validate_ok_members (s : Substrate) (e : HyperEdge)
    (hv : validate_edge_consistency s e = .ok ()) :
    ∀ nid ∈ e.connected_nodes, mapContains s.nodes nid = true := by
  intro nid hnid
  unfold validate_edge_consistency at hv
  cases hfind : e.connected_nodes.find? (fun n => !(mapContains s.nodes n)) with
  | some x => rw [hfind] at hv; exact absurd hv (by simp)
  | none =>
    have := List.find?_eq_none.1 hfind nid hnid
    simpa using this

theorem edgeConsistent_applyOp (s : Substrate) (op : SubOp)
    (hwf : WF s) (h : EdgeConsistent s) : EdgeConsistent (applyOp s op) := by
  cases op with
  | addNode n =>
    by_cases hc : mapContains s.nodes n.id = true
    · simpa [applyOp, add_node, hc] using h
    · simp only [Bool.not_eq_true] at hc
      simp only [applyOp, add_node, hc, Bool.false_eq_true, if_false]
      intro p hp nid hnid
      exact (mapContains_mapInsert _ _ _ _).2 (Or.inr (h p hp nid hnid))
  | updateNode n =>
    by_cases hc : mapContains s.nodes n.id = true
    · simp only [applyOp, update_node, hc, if_true]
      intro p hp nid hnid
      exact (mapContains_mapInsert _ _ _ _).2 (Or.inr (h p hp nid hnid))
    · simp only [Bool.not_eq_true] at hc
      simpa [applyOp, update_node, hc] using h
  | removeNode id =>
    intro p hp nid hnid
    simp only [applyOp, remove_node] at hp ⊢
    rw [cascade_eq_filter _ _ hwf.2.1] at hp
    have hmem := List.mem_filter.1 hp
    have hid : id ∉ p.2.connected_nodes := by
      have h2 := hmem.2
      simp only [Bool.not_eq_true'] at h2
      intro hmm
      rw [(listContains_iff _ _).2 hmm] at h2
      exact Bool.noConfusion h2
    have hne : nid ≠ id := fun hh => hid (hh ▸ hnid)
    unfold mapContains
    rw [mapFind_mapErase_ne _ _ _ hne]
    exact h p hmem.1 nid hnid
  | addEdge e =>
    by_cases hc : mapContains s.edges e.id = true
    · simpa [applyOp, add_edge, hc] using h
    · simp only [Bool.not_eq_true] at hc
      cases hv : validate_edge_consistency s e with
      | error msg => simpa [applyOp, add_edge, hc, hv] using h
      | ok u =>
        obtain ⟨⟩ := u
        simp only [applyOp, add_edge, hc, hv, Bool.false_eq_true, if_false]
        intro p hp nid hnid
        rcases mem_mapInsert _ _ _ _ hp with h1 | h1
        · subst h1
          exact validate_ok_members s e hv nid hnid
        · exact h p h1 nid hnid
  | updateEdge e =>
    by_cases hc : mapContains s.edges e.id = true
    · cases hv : validate_edge_consistency s e with
      | error msg => simpa [applyOp, update_edge, hc, hv] using h
      | ok u =>
        obtain ⟨⟩ := u
        simp only [applyOp, update_edge, hc, hv, if_true]
        intro p hp nid hnid
        rcases mem_mapInsert _ _ _ _ hp with h1 | h1
        · subst h1
          exact validate_ok_members s e hv nid hnid
        · exact h p h1 nid hnid
    · simp only [Bool.not_eq_true] at hc
      simpa [applyOp, update_edge, hc] using h
  | removeEdge id =>
    intro p hp nid hnid
    simp only [applyOp, remove_edge] at hp ⊢
    exact h p ((mapErase_sublist s.edges id).subset hp) nid hnid

theorem inv_foldl (ops : List SubOp) (s : Substrate)
    (h : WF s ∧ EdgeConsistent s) :
    WF (ops.foldl applyOp s) ∧ EdgeConsistent (ops.foldl applyOp s) := by
  induction ops generalizing s with
  | nil => exact h
  | cons op ops ih =>
    exact ih _ ⟨wf_applyOp s op h.1, edgeConsistent_applyOp s op h.1 h.2⟩

/-- C1: for every sequence of public substrate operations starting from
the empty substrate, every node id appearing in the `connected_nodes`
set of any stored edge exists as a key of the node table after each
operation completes. -/
theorem C1_referential_integrity (ops : List SubOp) :
    EdgeConsistent (runOps ops) :=
  (inv_foldl ops emptySubstrate
    ⟨⟨by simp [emptySubstrate], by simp [emptySubstrate],
      by simp [emptySubstrate], by simp [emptySubstrate]⟩,
     fun p hp => by simp [emptySubstrate] at hp⟩).2

/-- C2: removing a present node returns true, removes exactly the edges
whose `connected_nodes` contain the node (and no other), removes the
node, mirrors every removal to the persistence strategy; an absent id
returns false; and on nodes {1,2,3} with edges e1={1,2}, e2={1,3},
e3={2,3}, removing node 1 leaves exactly edge e3 and node count 2. -/
theorem C2_remove_node_correct :
    (∀ s id, WF s → mapContains s.nodes id = true →
      (remove_node s id).1 = true ∧
      (remove_node s id).2.edges
        = s.edges.filter (fun p => !(p.2.connected_nodes.contains id)) ∧
      mapFind (remove_node s id).2.nodes id = none ∧
      (∀ j, j ≠ id →
        mapFind (remove_node s id).2.nodes j = mapFind s.nodes j) ∧
      mapFind (remove_node s id).2.pnodes id = none ∧
      (∀ p ∈ s.edges, p.2.connected_nodes.contains id = true →
        mapFind (remove_node s id).2.pedges p.1 = none) ∧
      (∀ j, j ∉ (s.edges.filter
          (fun p => p.2.connected_nodes.contains id)).map Prod.fst →
        mapFind (remove_node s id).2.pedges j = mapFind s.pedges j)) ∧
    (∀ s id, mapContains s.nodes id = false →
      (remove_node s id).1 = false) ∧
    ((remove_node triangleS "1").2.edges.map Prod.fst = ["e3"] ∧
     node_count (remove_node triangleS "1").2 = 2) := by
  refine ⟨?_, ?_, by decide⟩
  · intro s id hwf hc
    obtain ⟨hn, he, hpn, hpe⟩ := hwf
    refine ⟨by simp [remove_node, hc], ?_, ?_, ?_, ?_, ?_, ?_⟩
    · simp only [remove_node]
      exact cascade_eq_filter _ _ he
    · simp only [remove_node]
      exact mapFind_mapErase_self _ _ hn
    · intro j hj
      simp only [remove_node]
      exact mapFind_mapErase_ne _ _ _ hj
    · simp only [remove_node, hc, if_true]
      exact mapFind_mapErase_self _ _ hpn
    · intro p hp hpc
      simp only [remove_node]
      exact mapFind_foldl_mapErase_of_mem _ _ _ hpe
        (List.mem_map.2 ⟨p, List.mem_filter.2 ⟨hp, hpc⟩, rfl⟩)
    · intro j hj
      simp only [remove_node]
      exact mapFind_foldl_mapErase_of_not_mem _ _ _ hj
  · intro s id hc
    simp [remove_node, hc]

/-- Witness for C2 at the triangle substrate: node "1" is present, its
removal succeeds and erases its two incident edges from persistence. -/
theorem C2_remove_node_correct_witness :
    (remove_node triangleS "1").1 = true ∧
    mapFind (remove_node triangleS "1").2.pnodes "1" = none :=
  ⟨(C2_remove_node_correct.1 triangleS "1" (by decide) (by decide)).1,
   (C2_remove_node_correct.1 triangleS "1" (by decide) (by decide)).2.2.2.2.1⟩

/-- C3: adding an edge with a fresh id but a member missing from the
node table raises the referential-integrity error (a hard failure, not
a boolean false), stores nothing and leaves the edge count unchanged;
the same validation applies to `update_edge` of an existing edge id. -/
theorem C3_add_edge_referential_error :
    (∀ s e, mapContains s.edges e.id = false →
      (∃ nid ∈ e.connected_nodes, mapContains s.nodes nid = false) →
      ∃ msg, add_edge s e = .error msg ∧ applyOp s (.addEdge e) = s ∧
        edge_count (applyOp s (.addEdge e)) = edge_count s) ∧
    (∀ s e, mapContains s.edges e.id = true →
      (∃ nid ∈ e.connected_nodes, mapContains s.nodes nid = false) →
      ∃ msg, update_edge s e = .error msg ∧
        applyOp s (.updateEdge e) = s) := by
  constructor
  · intro s e hc ⟨nid, hnid, hmiss⟩
    have hsome : (e.connected_nodes.find?
        (fun n => !(mapContains s.nodes n))).isSome := by
      rw [List.find?_isSome]
      exact ⟨nid, hnid, by simp [hmiss]⟩
    obtain ⟨x, hx⟩ := Option.isSome_iff_exists.1 hsome
    refine ⟨"Edge references non-existent node: " ++ x, ?_, ?_, ?_⟩
    · simp [add_edge, hc, validate_edge_consistency, hx]
    · simp [applyOp, add_edge, hc, validate_edge_consistency, hx]
    · simp [applyOp, add_edge, hc, validate_edge_consistency, hx]
  · intro s e hc ⟨nid, hnid, hmiss⟩
    have hsome : (e.connected_nodes.find?
        (fun n => !(mapContains s.nodes n))).isSome := by
      rw [List.find?_isSome]
      exact ⟨nid, hnid, by simp [hmiss]⟩
    obtain ⟨x, hx⟩ := Option.isSome_iff_exists.1 hsome
    refine ⟨"Edge references non-existent node: " ++ x, ?_, ?_⟩
    · simp [update_edge, hc, validate_edge_consistency, hx]
    · simp [applyOp, update_edge, hc, validate_edge_consistency, hx]

/-- Witness for C3: in the triangle substrate, adding a fresh edge with
the missing member "zzz" fails hard and changes nothing. -/
theorem C3_add_edge_referential_error_witness :
    ∃ msg, add_edge triangleS (mkEdge "e9" ["1", "zzz"]) = .error msg ∧
      applyOp triangleS (.addEdge (mkEdge "e9" ["1", "zzz"])) = triangleS ∧
      edge_count (applyOp triangleS (.addEdge (mkEdge "e9" ["1", "zzz"])))
        = edge_count triangleS :=
  C3_add_edge_referential_error.1 triangleS (mkEdge "e9" ["1", "zzz"])
    (by decide) (by decide)

/-- C10 (implicit): in `add_edge` the duplicate-id check precedes
referential-integrity validation — a duplicate edge id always yields a
plain `false` with no mutation, even with dangling members, and the
referential-integrity error can only arise for a fresh edge id. -/
theorem C10_duplicate_check_first :
    (∀ s e, mapContains s.edges e.id = true →
      add_edge s e = .ok (false, s)) ∧
    (∀ s e msg, add_edge s e = .error msg →
      mapContains s.edges e.id = false) := by
  constructor
  · intro s e hc
    simp [add_edge, hc]
  · intro s e msg herr
    by_cases hc : mapContains s.edges e.id = true
    · rw [show add_edge s e = .ok (false, s) by simp [add_edge, hc]] at herr
      exact absurd herr (by simp)
    · exact Bool.eq_false_iff.2 hc

/-- Witness for C10: re-adding id "e1" with a dangling member returns
the benign false and leaves the triangle substrate untouched. -/
theorem C10_duplicate_check_first_witness :
    add_edge triangleS (mkEdge "e1" ["zzz"]) = .ok (false, triangleS) :=
  C10_duplicate_check_first.1 triangleS (mkEdge "e1" ["zzz"]) (by decide)

/-- C4 (code bug): with the in-memory reference persistence strategy,
`clear_substrate` empties the persistence backing store as well, so
`save` then `clear` then `load` restores an empty substrate instead of
the original contents — contradicting the repository's own round-trip
test, which requires node_count 1 and edge_count 1 after the reload. -/
theorem C4_roundtrip_fails_on_code :
    node_count persistS = 1 ∧ edge_count persistS = 1 ∧
    node_count (clear_substrate (save_substrate persistS).2) = 0 ∧
    edge_count (clear_substrate (save_substrate persistS).2) = 0 ∧
    node_count
      (load_substrate (clear_substrate (save_substrate persistS).2)).2 = 0 ∧
    edge_count
      (load_substrate (clear_substrate (save_substrate persistS).2)).2 = 0 := by
  decide

/-- C6 (code bug in the source): the claimed values — clustering
coefficient 1.0 at each triangle node, density 1.0, coefficient 0.0
below 2 connected nodes, density 0.0 below 2 nodes and otherwise
edge_count / C(node_count, 2) — are exactly what the bodies compute,
shown here on the lock-free core. But the shipped
`calculate_clustering_coefficient` deadlocks (undefined behavior)
before returning on every call: holding `substrate_mutex_` it calls
the public `get_connected_nodes`, which re-locks that same
non-recursive mutex, so the repository's own clustering test
(HypergraphSubstrateTests.cpp:313-316, requiring 1.0 three times)
hangs rather than passes. `calculate_substrate_density` takes the lock
once, reads the tables directly, and is faithful as modelled. -/
theorem C6_clustering_and_density :
    (calculate_clustering_coefficient triangleABC "nodeA" = 1 ∧
     calculate_clustering_coefficient triangleABC "nodeB" = 1 ∧
     calculate_clustering_coefficient triangleABC "nodeC" = 1 ∧
     calculate_substrate_density triangleABC = 1) ∧
    (∀ s id, (get_connected_nodes s.edges id).length < 2 →
      calculate_clustering_coefficient s id = 0) ∧
    (∀ s, s.nodes.length < 2 → calculate_substrate_density s = 0) ∧
    (∀ s, 2 ≤ s.nodes.length →
      calculate_substrate_density s
        = (edge_count s : ℚ) / (Nat.choose (node_count s) 2 : ℚ)) := by
  refine ⟨⟨?_, ?_, ?_, ?_⟩, ?_, ?_, ?_⟩
  · have h1 : get_connected_nodes triangleABC.edges "nodeA"
        = ["nodeB", "nodeC"] := by rfl
    have h2 : countClosedPairs triangleABC.edges ["nodeB", "nodeC"] = 1 := by
      rfl
    simp only [calculate_clustering_coefficient, h1, h2]
    norm_num
  · have h1 : get_connected_nodes triangleABC.edges "nodeB"
        = ["nodeA", "nodeC"] := by rfl
    have h2 : countClosedPairs triangleABC.edges ["nodeA", "nodeC"] = 1 := by
      rfl
    simp only [calculate_clustering_coefficient, h1, h2]
    norm_num
  · have h1 : get_connected_nodes triangleABC.edges "nodeC"
        = ["nodeB", "nodeA"] := by rfl
    have h2 : countClosedPairs triangleABC.edges ["nodeB", "nodeA"] = 1 := by
      rfl
    simp only [calculate_clustering_coefficient, h1, h2]
    norm_num
  · have hd : triangleABC.nodes.length = 3 := by rfl
    have he : triangleABC.edges.length = 3 := by rfl
    simp only [calculate_substrate_density, hd, he]
    norm_num
  · intro s id h
    simp [calculate_clustering_coefficient, h]
  · intro s h
    simp [calculate_substrate_density, h]
  · intro s h
    simp only [calculate_substrate_density, if_neg (Nat.not_lt.2 h),
               edge_count, node_count, Nat.choose_two_right]

/-- Witness for C6's general clauses at the triangle: the density
formula evaluates to 3 / C(3,2) there. -/
theorem C6_clustering_and_density_witness :
    calculate_substrate_density triangleABC
      = (edge_count triangleABC : ℚ)
        / (Nat.choose (node_count triangleABC) 2 : ℚ) :=
  C6_clustering_and_density.2.2.2 triangleABC (by decide)

/-! ### Resonance lemmas -/

theorem foldl_pattern_influence (input : String) (l : List String)
    (init : ℚ) :
    l.foldl (fun acc p => if occursIn p input then acc * (12/10) else acc)
        init
      = init * (6/5) ^ ((l.filter (fun p => occursIn p input)).length) := by
  induction l generalizing init with
  | nil => simp
  | cons p l ih =>
    by_cases h : occursIn p input = true
    · rw [List.foldl_cons, if_pos h, ih]
      have hfc : (List.filter (fun q => occursIn q input) (p :: l)).length
          = (List.filter (fun q => occursIn q input) l).length + 1 := by
        simp [List.filter_cons, h]
      rw [hfc, pow_succ]
      ring
    · rw [List.foldl_cons, if_neg h, ih]
      have hfc : (List.filter (fun q => occursIn q input) (p :: l)).length
          = (List.filter (fun q => occursIn q input) l).length := by
        simp [List.filter_cons, h]
      rw [hfc]

theorem pattern_influence_eq (identity : DeepTreeEcho) (input : String) :
    pattern_influence identity input
      = (6/5) ^ ((identity.echo_patterns.filter
          (fun p => occursIn p input)).length) := by
  unfold pattern_influence
  rw [foldl_pattern_influence, one_mul]

theorem base_resonance_pos (h : String → Nat) (identity : DeepTreeEcho)
    (input : String) : 0 < base_resonance h identity input := by
  unfold base_resonance
  have hd : (0:ℚ) ≤ |(h input : ℚ) - (h identity.identity_signature : ℚ)|
      / ((max (h input) (h identity.identity_signature) : Nat) : ℚ) :=
    div_nonneg (abs_nonneg _) (by positivity)
  exact div_pos one_pos (by linarith)

theorem base_resonance_le_one (h : String → Nat)
    (identity : DeepTreeEcho) (input : String) :
    base_resonance h identity input ≤ 1 := by
  unfold base_resonance
  have hd : (0:ℚ) ≤ |(h input : ℚ) - (h identity.identity_signature : ℚ)|
      / ((max (h input) (h identity.identity_signature) : Nat) : ℚ) :=
    div_nonneg (abs_nonneg _) (by positivity)
  rw [div_le_one (by linarith)]
  linarith

theorem calculate_resonance_eq (h : String → Nat)
    (identity : DeepTreeEcho) (input : String) (h1 : input ≠ "")
    (h2 : identity.identity_signature ≠ "") :
    calculate_resonance h identity input
      = base_resonance h identity input
        * (6/5) ^ ((identity.echo_patterns.filter
            (fun p => occursIn p input)).length)
        * identity.cognitive_weight := by
  unfold calculate_resonance
  rw [if_neg (by simp [h1, h2]), pattern_influence_eq]

/-- C7 (amended): the zero cases; and for nonempty text and signature
the resonance equals the base hash-distance score — always in (0, 1] in
exact arithmetic — times 1.2 for every entry of the pattern sequence
occurring as a substring of the text (counted with multiplicity, not
per distinct pattern), times the identity weight; the result is
nonnegative whenever the weight is. -/
theorem C7_resonance_formula :
    (∀ (h : String → Nat) identity input,
      input = "" ∨ identity.identity_signature = "" →
      calculate_resonance h identity input = 0) ∧
    (∀ (h : String → Nat) identity input, input ≠ "" →
      identity.identity_signature ≠ "" →
      calculate_resonance h identity input
        = base_resonance h identity input
          * (6/5) ^ ((identity.echo_patterns.filter
              (fun p => occursIn p input)).length)
          * identity.cognitive_weight ∧
      0 < base_resonance h identity input ∧
      base_resonance h identity input ≤ 1 ∧
      (0 ≤ identity.cognitive_weight →
        0 ≤ calculate_resonance h identity input)) := by
  constructor
  · intro h identity input hz
    unfold calculate_resonance
    rw [if_pos hz]
  · intro h identity input h1 h2
    refine ⟨calculate_resonance_eq h identity input h1 h2,
      base_resonance_pos h identity input,
      base_resonance_le_one h identity input, ?_⟩
    intro hw
    rw [calculate_resonance_eq h identity input h1 h2]
    have hb := base_resonance_pos h identity input
    have hp : (0:ℚ) ≤ (6/5) ^ ((identity.echo_patterns.filter
        (fun p => occursIn p input)).length) := by positivity
    positivity

/-- Counterexample to C7 as stated: for the identity with pattern
sequence ["a", "a"] (one distinct pattern), input "a" is multiplied by
1.2 twice — once per entry — not once per distinct matching pattern. -/
theorem C7_counterexample :
    calculate_resonance hashLen dupIdent "a"
      ≠ base_resonance hashLen dupIdent "a"
        * (6/5) ^ ((dupIdent.echo_patterns.dedup.filter
            (fun p => occursIn p "a")).length)
        * dupIdent.cognitive_weight := by
  have hocc : occursIn "a" "a" = true := by decide
  have hb : base_resonance hashLen dupIdent "a" = 1 := by
    have e1 : hashLen "a" = 1 := rfl
    have e2 : hashLen dupIdent.identity_signature = 1 := rfl
    simp only [base_resonance, e1, e2]
    norm_num
  have hdedup : (dupIdent.echo_patterns.dedup.filter
      (fun p => occursIn p "a")).length = 1 := by decide
  have hlhs : calculate_resonance hashLen dupIdent "a"
      = 1 * (6/5) ^ 2 * 1 := by
    rw [calculate_resonance_eq hashLen dupIdent "a" (by decide) (by decide),
        hb]
    have hc : (dupIdent.echo_patterns.filter
        (fun p => occursIn p "a")).length = 2 := by decide
    rw [hc]
    rfl
  rw [hlhs, hb, hdedup]
  show (1:ℚ) * (6/5) ^ 2 * 1 ≠ 1 * (6/5) ^ 1 * dupIdent.cognitive_weight
  have hw : dupIdent.cognitive_weight = 1 := rfl
  rw [hw]
  norm_num

/-- Witness for C7 at the duplicate-pattern identity and input "a". -/
theorem C7_resonance_formula_witness :
    calculate_resonance hashLen dupIdent "a"
      = base_resonance hashLen dupIdent "a"
        * (6/5) ^ ((dupIdent.echo_patterns.filter
            (fun p => occursIn p "a")).length)
        * dupIdent.cognitive_weight ∧
    0 < base_resonance hashLen dupIdent "a" :=
  ⟨(C7_resonance_formula.2 hashLen dupIdent "a" (by decide) (by decide)).1,
   (C7_resonance_formula.2 hashLen dupIdent "a" (by decide) (by decide)).2.1⟩

/-- C8 (amended): with the hash-distance base factor held equal (equal
hashes for the two inputs) and a positive weight, an input whose
matched-pattern count is strictly larger gets a strictly larger
resonance. -/
theorem C8_resonance_monotone :
    ∀ (h : String → Nat) identity t1 t2, t1 ≠ "" → t2 ≠ "" →
      identity.identity_signature ≠ "" → h t1 = h t2 →
      0 < identity.cognitive_weight →
      (identity.echo_patterns.filter (fun p => occursIn p t2)).length
        < (identity.echo_patterns.filter (fun p => occursIn p t1)).length →
      calculate_resonance h identity t2 < calculate_resonance h identity t1 := by
  intro h identity t1 t2 h1 h2 hsig hh hw hcount
  rw [calculate_resonance_eq h identity t1 h1 hsig,
      calculate_resonance_eq h identity t2 h2 hsig]
  have hbase : base_resonance h identity t2 = base_resonance h identity t1 := by
    unfold base_resonance
    rw [hh]
  rw [hbase]
  have hb := base_resonance_pos h identity t1
  have hpow : (6/5:ℚ) ^ ((identity.echo_patterns.filter
        (fun p => occursIn p t2)).length)
      < (6/5) ^ ((identity.echo_patterns.filter
        (fun p => occursIn p t1)).length) :=
    pow_lt_pow_right₀ (by norm_num) hcount
  exact mul_lt_mul_of_pos_right (mul_lt_mul_of_pos_left hpow hb) hw

/-- Counterexample to C8 as stated: for the identity with signature
"ab" and patterns {"x","y"} under the length stand-in hash, the input
"xyzw" matches two patterns yet scores strictly less than the input
"ab", which matches none — the hash-distance base factor dominates. -/
theorem C8_counterexample :
    (patIdent.echo_patterns.filter (fun p => occursIn p "xyzw")).length = 2 ∧
    (patIdent.echo_patterns.filter (fun p => occursIn p "ab")).length = 0 ∧
    calculate_resonance hashLen patIdent "xyzw"
      < calculate_resonance hashLen patIdent "ab" := by
  refine ⟨by decide, by decide, ?_⟩
  have hb1 : base_resonance hashLen patIdent "xyzw" = 2/3 := by
    have e1 : hashLen "xyzw" = 4 := rfl
    have e2 : hashLen patIdent.identity_signature = 2 := rfl
    simp only [base_resonance, e1, e2]
    norm_num
  have hb2 : base_resonance hashLen patIdent "ab" = 1 := by
    have e1 : hashLen "ab" = 2 := rfl
    have e2 : hashLen patIdent.identity_signature = 2 := rfl
    simp only [base_resonance, e1, e2]
    norm_num
  rw [calculate_resonance_eq hashLen patIdent "xyzw" (by decide) (by decide),
      calculate_resonance_eq hashLen patIdent "ab" (by decide) (by decide),
      hb1, hb2]
  have hc1 : (patIdent.echo_patterns.filter
      (fun p => occursIn p "xyzw")).length = 2 := by decide
  have hc2 : (patIdent.echo_patterns.filter
      (fun p => occursIn p "ab")).length = 0 := by decide
  rw [hc1, hc2]
  have hw : patIdent.cognitive_weight = 1 := rfl
  rw [hw]
  norm_num

/-- Witness for C8: two inputs of equal length (hence equal stand-in
hash), one matching both patterns and one matching none. -/
theorem C8_resonance_monotone_witness :
    calculate_resonance hashLen patIdent "cd"
      < calculate_resonance hashLen patIdent "xy" :=
  C8_resonance_monotone hashLen patIdent "xy" "cd" (by decide) (by decide)
    (by decide) (by decide) (by norm_num [patIdent]) (by decide)

/-- C9: if the extension hook invoked during `process_cognitive_signal`
fails, the cognitive state is restored to the pre-call state and the
failure is re-raised (in particular the machine is not left in
PROCESSING when it was not already there); on success the state ends as
REFLECTING. -/
theorem C9_signal_rollback :
    ∀ (h : String → Nat)
      (hook : String → KernelState → KernelState × Except String Unit)
      (k : KernelState) (signal : String),
      (∀ k3 e,
        hook signal (signal_prep h (set_cognitive_state k .PROCESSING)
            signal) = (k3, .error e) →
        process_cognitive_signal h hook k signal
          = (set_cognitive_state k3 k.current_state, Except.error e) ∧
        (process_cognitive_signal h hook k signal).1.current_state
          = k.current_state ∧
        (process_cognitive_signal h hook k signal).2 = Except.error e ∧
        (k.current_state ≠ CognitiveState.PROCESSING →
          (process_cognitive_signal h hook k signal).1.current_state
            ≠ CognitiveState.PROCESSING)) ∧
      (∀ k3,
        hook signal (signal_prep h (set_cognitive_state k .PROCESSING)
            signal) = (k3, .ok ()) →
        (process_cognitive_signal h hook k signal).1.current_state
          = CognitiveState.REFLECTING ∧
        (process_cognitive_signal h hook k signal).2 = Except.ok ()) := by
  intro h hook k signal
  constructor
  · intro k3 e he
    have hr : process_cognitive_signal h hook k signal
        = (set_cognitive_state k3 k.current_state, Except.error e) := by
      simp only [process_cognitive_signal]
      rw [he]
    refine ⟨hr, ?_, ?_, ?_⟩
    · rw [hr]; rfl
    · rw [hr]
    · intro hne
      rw [hr]
      exact hne
  · intro k3 he
    have hr : process_cognitive_signal h hook k signal
        = (set_cognitive_state k3 .REFLECTING, Except.ok ()) := by
      simp only [process_cognitive_signal]
      rw [he]
    rw [hr]
    exact ⟨rfl, rfl⟩

/-- Witness for C9: a hook that always fails leaves a kernel that was
AWAKENING in AWAKENING with the error re-raised. -/
theorem C9_signal_rollback_witness :
    (process_cognitive_signal hashLen
        (fun _ k => (k, Except.error "boom"))
        ⟨⟨"sig", 0, [], 1⟩, .AWAKENING, [], 0⟩ "msg").1.current_state
      = CognitiveState.AWAKENING ∧
    (process_cognitive_signal hashLen
        (fun _ k => (k, Except.error "boom"))
        ⟨⟨"sig", 0, [], 1⟩, .AWAKENING, [], 0⟩ "msg").2
      = Except.error "boom" :=
  ⟨((C9_signal_rollback hashLen (fun _ k => (k, Except.error "boom"))
      ⟨⟨"sig", 0, [], 1⟩, .AWAKENING, [], 0⟩ "msg").1 _ "boom" rfl).2.1,
   ((C9_signal_rollback hashLen (fun _ k => (k, Except.error "boom"))
      ⟨⟨"sig", 0, [], 1⟩, .AWAKENING, [], 0⟩ "msg").1 _ "boom" rfl).2.2.1⟩

/-! ### BFS reachability lemmas -/

theorem freshMembers_mem (ms : List String) (cur : String)
    (visited : List String) (y : String) :
    y ∈ freshMembers ms cur visited ↔
      y ∈ ms ∧ y ≠ cur ∧ y ∉ visited := by
  induction ms generalizing visited with
  | nil => simp [freshMembers]
  | cons nb rest ih =>
    by_cases hc : nb ≠ cur ∧ nb ∉ visited
    · rw [freshMembers, if_pos hc]
      constructor
      · intro hy
        rcases List.mem_cons.1 hy with h1 | h1
        · subst h1
          exact ⟨List.mem_cons_self _ _, hc.1, hc.2⟩
        · have h2 := (ih _).1 h1
          exact ⟨List.mem_cons_of_mem _ h2.1, h2.2.1,
            fun hv => h2.2.2 (List.mem_cons_of_mem _ hv)⟩
      · rintro ⟨hmem, hne, hnv⟩
        rcases List.mem_cons.1 hmem with h1 | h1
        · subst h1
          exact List.mem_cons_self _ _
        · by_cases hynb : y = nb
          · subst hynb
            exact List.mem_cons_self _ _
          · refine List.mem_cons_of_mem _ ((ih _).2 ⟨h1, hne, ?_⟩)
            intro hv
            rcases List.mem_cons.1 hv with h5 | h5
            · exact hynb h5
            · exact hnv h5
    · rw [freshMembers, if_neg hc]
      rw [ih]
      push_neg at hc
      constructor
      · rintro ⟨h1, h2, h3⟩
        exact ⟨List.mem_cons_of_mem _ h1, h2, h3⟩
      · rintro ⟨h1, h2, h3⟩
        rcases List.mem_cons.1 h1 with h4 | h4
        · subst h4
          exact absurd (hc h2) h3
        · exact ⟨h4, h2, h3⟩

theorem freshMembers_nodup (ms : List String) (cur : String)
    (visited : List String) : (freshMembers ms cur visited).Nodup := by
  induction ms generalizing visited with
  | nil => simp [freshMembers]
  | cons nb rest ih =>
    by_cases hc : nb ≠ cur ∧ nb ∉ visited
    · rw [freshMembers, if_pos hc]
      refine List.nodup_cons.2 ⟨?_, ih _⟩
      intro hmem
      exact ((freshMembers_mem _ _ _ _).1 hmem).2.2 (List.mem_cons_self _ _)
    · rw [freshMembers, if_neg hc]
      exact ih _

theorem discoverAll_mem (edges : List (String × HyperEdge)) (cur : String)
    (visited : List String) (y : String) :
    y ∈ discoverAll edges cur visited ↔
      (∃ p ∈ edges, cur ∈ p.2.connected_nodes ∧ y ∈ p.2.connected_nodes)
        ∧ y ≠ cur ∧ y ∉ visited := by
  induction edges generalizing visited with
  | nil => simp [discoverAll]
  | cons p rest ih =>
    by_cases hc : p.2.connected_nodes.contains cur = true
    · rw [discoverAll, if_pos hc]
      constructor
      · intro hy
        rcases List.mem_append.1 hy with h1 | h1
        · have h2 := (freshMembers_mem _ _ _ _).1 h1
          exact ⟨⟨p, List.mem_cons_self _ _, (listContains_iff _ _).1 hc, h2.1⟩,
            h2.2.1, h2.2.2⟩
        · obtain ⟨⟨q, hq, hq2⟩, hne, hnv⟩ := (ih _).1 h1
          exact ⟨⟨q, List.mem_cons_of_mem _ hq, hq2⟩, hne,
            fun hv => hnv (List.mem_append.2 (Or.inr hv))⟩
      · rintro ⟨⟨q, hq, hqc, hqy⟩, hne, hnv⟩
        by_cases hyf : y ∈ freshMembers p.2.connected_nodes cur visited
        · exact List.mem_append.2 (Or.inl hyf)
        · refine List.mem_append.2 (Or.inr ((ih _).2 ⟨⟨q, ?_, hqc, hqy⟩, hne, ?_⟩))
          · rcases List.mem_cons.1 hq with h4 | h4
            · subst h4
              exact absurd ((freshMembers_mem _ _ _ _).2 ⟨hqy, hne, hnv⟩) hyf
            · exact h4
          · intro hv
            rcases List.mem_append.1 hv with h5 | h5
            · exact hyf h5
            · exact hnv h5
    · rw [discoverAll, if_neg hc, ih]
      constructor
      · rintro ⟨⟨q, hq, hqc⟩, h2, h3⟩
        exact ⟨⟨q, List.mem_cons_of_mem _ hq, hqc⟩, h2, h3⟩
      · rintro ⟨⟨q, hq, hqc, hqy⟩, h2, h3⟩
        rcases List.mem_cons.1 hq with h4 | h4
        · subst h4
          exact absurd ((listContains_iff _ _).2 hqc) (by simpa using hc)
        · exact ⟨⟨q, h4, hqc, hqy⟩, h2, h3⟩

theorem discoverAll_mem_adj (edges : List (String × HyperEdge))
    (cur : String) (visited : List String) (y : String) :
    y ∈ discoverAll edges cur visited ↔ AdjP edges cur y ∧ y ∉ visited := by
  rw [discoverAll_mem]
  unfold AdjP
  constructor
  · rintro ⟨hex, hne, hnv⟩
    exact ⟨⟨Ne.symm hne, hex⟩, hnv⟩
  · rintro ⟨⟨hne, hex⟩, hnv⟩
    exact ⟨hex, Ne.symm hne, hnv⟩

theorem discoverAll_nodup (edges : List (String × HyperEdge)) (cur : String)
    (visited : List String) : (discoverAll edges cur visited).Nodup := by
  induction edges generalizing visited with
  | nil => simp [discoverAll]
  | cons p rest ih =>
    by_cases hc : p.2.connected_nodes.contains cur = true
    · rw [discoverAll, if_pos hc]
      refine List.Nodup.append (freshMembers_nodup _ _ _) (ih _) ?_
      intro x hxf hxd
      exact ((discoverAll_mem _ _ _ _).1 hxd).2.2 (List.mem_append.2 (Or.inl hxf))
    · rw [discoverAll, if_neg hc]
      exact ih _

theorem mem_allMembers (edges : List (String × HyperEdge)) (y : String) :
    y ∈ allMembers edges ↔ ∃ p ∈ edges, y ∈ p.2.connected_nodes := by
  induction edges with
  | nil => simp [allMembers]
  | cons p rest ih =>
    have hstep : allMembers (p :: rest)
        = p.2.connected_nodes ++ allMembers rest := rfl
    rw [hstep, List.mem_append, ih]
    constructor
    · rintro (h1 | ⟨q, hq, hq2⟩)
      · exact ⟨p, List.mem_cons_self _ _, h1⟩
      · exact ⟨q, List.mem_cons_of_mem _ hq, hq2⟩
    · rintro ⟨q, hq, hq2⟩
      rcases List.mem_cons.1 hq with h4 | h4
      · subst h4
        exact Or.inl hq2
      · exact Or.inr ⟨q, h4, hq2⟩

/-! ### Counting: each BFS discovery consumes unvisited capacity -/

theorem length_filter_split (l : List String) (p : String → Bool) :
    (l.filter p).length + (l.filter (fun a => !(p a))).length = l.length := by
  induction l with
  | nil => rfl
  | cons a l ih =>
    by_cases h : p a = true
    · simp only [List.filter_cons, h, Bool.not_true, List.length_cons]
      simp only [if_true, Bool.false_eq_true, if_false, List.length_cons]
      omega
    · have h2 : p a = false := Bool.eq_false_iff.2 h
      simp only [List.filter_cons, h2, Bool.not_false, Bool.false_eq_true,
        if_false, if_true, List.length_cons]
      omega

theorem nodup_length_eq_of_mem_iff {l1 l2 : List String} (h1 : l1.Nodup)
    (h2 : l2.Nodup) (h : ∀ x, x ∈ l1 ↔ x ∈ l2) : l1.length = l2.length := by
  rw [← List.toFinset_card_of_nodup h1, ← List.toFinset_card_of_nodup h2]
  congr 1
  ext x
  simp only [List.mem_toFinset]
  exact h x

theorem count_key (U f visited : List String) (hU : U.Nodup) (hf : f.Nodup)
    (hsub : ∀ y ∈ f, y ∈ U) (hdis : ∀ y ∈ f, y ∉ visited) :
    (U.filter (fun x => decide (x ∉ (f ++ visited)))).length + f.length
      ≤ (U.filter (fun x => decide (x ∉ visited))).length := by
  have hVnd : (U.filter (fun x => decide (x ∉ visited))).Nodup := hU.filter _
  have hfV : ∀ y ∈ f, y ∈ U.filter (fun x => decide (x ∉ visited)) :=
    fun y hy => List.mem_filter.2 ⟨hsub y hy, by simp [hdis y hy]⟩
  have hsplit := length_filter_split (U.filter (fun x => decide (x ∉ visited)))
    (fun x => decide (x ∉ f))
  have heq1 : U.filter (fun x => decide (x ∉ (f ++ visited)))
      = (U.filter (fun x => decide (x ∉ visited))).filter
          (fun x => decide (x ∉ f)) := by
    rw [List.filter_filter]
    apply List.filter_congr
    intro x _
    simp [List.mem_append, not_or, Bool.and_comm]
  have heq2 : ((U.filter (fun x => decide (x ∉ visited))).filter
      (fun x => !(decide (x ∉ f)))).length = f.length := by
    apply nodup_length_eq_of_mem_iff (hVnd.filter _) hf
    intro x
    constructor
    · intro hx
      simpa using (List.mem_filter.1 hx).2
    · intro hxf
      exact List.mem_filter.2 ⟨hfV x hxf, by simp [hxf]⟩
  rw [heq1]
  omega

theorem bfs_done (edges : List (String × HyperEdge)) (mh : Nat)
    (queue : List (String × Nat)) (visited reachable : List String)
    (fuel : Nat) (hq : ∀ x ∈ queue, mh ≤ x.2)
    (hfuel : queue.length ≤ fuel) :
    bfsLoop edges mh fuel queue visited reachable = reachable := by
  induction queue generalizing fuel with
  | nil => cases fuel <;> rfl
  | cons x rest ih =>
    obtain ⟨cur, hops⟩ := x
    cases fuel with
    | zero => simp at hfuel
    | succ f =>
      rw [bfsLoop, if_pos (hq (cur, hops) (List.mem_cons_self _ _))]
      refine ih f (fun z hz => hq z (List.mem_cons_of_mem _ hz)) ?_
      simp only [List.length_cons] at hfuel
      omega

theorem bfs_phase1 (edges : List (String × HyperEdge)) (q1 : List String)
    (q2 : List (String × Nat)) (visited reachable : List String)
    (fuel : Nat) (hq2 : ∀ x ∈ q2, 2 ≤ x.2)
    (hfuel : q1.length + q2.length
      + (((allMembers edges).dedup).filter
          (fun x => decide (x ∉ visited))).length ≤ fuel) :
    bfsLoop edges 2 fuel (q1.map (fun x => (x, 1)) ++ q2) visited reachable
      = reachable ++ frontier edges q1 visited := by
  induction q1 generalizing q2 visited reachable fuel with
  | nil =>
    rw [List.map_nil, List.nil_append, frontier, List.append_nil]
    exact bfs_done edges 2 q2 visited reachable fuel hq2 (by omega)
  | cons x xs ih =>
    cases fuel with
    | zero => simp at hfuel
    | succ f =>
      simp only [List.map_cons, List.cons_append]
      rw [bfsLoop, if_neg (by omega : ¬ 2 ≤ 1)]
      simp only []
      rw [List.append_assoc]
      have hsub : ∀ y ∈ discoverAll edges x visited,
          y ∈ (allMembers edges).dedup := by
        intro y hy
        obtain ⟨⟨q, hq, _, hqy⟩, _, _⟩ := (discoverAll_mem _ _ _ _).1 hy
        exact List.mem_dedup.2 ((mem_allMembers _ _).2 ⟨q, hq, hqy⟩)
      have hdis : ∀ y ∈ discoverAll edges x visited, y ∉ visited :=
        fun y hy => ((discoverAll_mem _ _ _ _).1 hy).2.2
      have hkey := count_key ((allMembers edges).dedup)
        (discoverAll edges x visited) visited (List.nodup_dedup _)
        (discoverAll_nodup _ _ _) hsub hdis
      rw [ih (q2 ++ (discoverAll edges x visited).map (fun y => (y, 1 + 1)))
        (discoverAll edges x visited ++ visited)
        (reachable ++ discoverAll edges x visited) f ?_ ?_]
      · rw [frontier, ← List.append_assoc]
      · intro z hz
        rcases List.mem_append.1 hz with h1 | h1
        · exact hq2 z h1
        · obtain ⟨w, _, rfl⟩ := List.mem_map.1 h1
          simp
      · simp only [List.length_append, List.length_map]
        simp only [List.length_cons] at hfuel
        omega

theorem get_reachable_nodes_eq (edges : List (String × HyperEdge))
    (source : String) :
    get_reachable_nodes edges source 2
      = discoverAll edges source [source]
        ++ frontier edges (discoverAll edges source [source])
            (discoverAll edges source [source] ++ [source]) := by
  unfold get_reachable_nodes
  rw [show 1 + (allMembers edges).length
      = (allMembers edges).length + 1 from by omega]
  rw [bfsLoop, if_neg (by omega : ¬ 2 ≤ 0)]
  simp only [List.nil_append]
  have hsub : ∀ y ∈ discoverAll edges source [source],
      y ∈ (allMembers edges).dedup := by
    intro y hy
    obtain ⟨⟨q, hq, _, hqy⟩, _, _⟩ := (discoverAll_mem _ _ _ _).1 hy
    exact List.mem_dedup.2 ((mem_allMembers _ _).2 ⟨q, hq, hqy⟩)
  have hdis : ∀ y ∈ discoverAll edges source [source], y ∉ [source] :=
    fun y hy => ((discoverAll_mem _ _ _ _).1 hy).2.2
  have hkey := count_key ((allMembers edges).dedup)
    (discoverAll edges source [source]) [source] (List.nodup_dedup _)
    (discoverAll_nodup _ _ _) hsub hdis
  have hbound : (((allMembers edges).dedup).filter
      (fun x => decide (x ∉ ([source] : List String)))).length
      ≤ (allMembers edges).length := by
    calc (((allMembers edges).dedup).filter
        (fun x => decide (x ∉ ([source] : List String)))).length
        ≤ ((allMembers edges).dedup).length := List.length_filter_le _ _
      _ ≤ (allMembers edges).length := (List.dedup_sublist _).length_le
  have := bfs_phase1 edges (discoverAll edges source [source]) []
    (discoverAll edges source [source] ++ [source])
    (discoverAll edges source [source]) ((allMembers edges).length)
    (by simp) (by simp only [List.length_nil]; omega)
  rw [List.append_nil] at this
  rw [show (0 + 1) = 1 from rfl]
  exact this

theorem frontier_mem (edges : List (String × HyperEdge))
    (q1 : List String) (visited : List String) (y : String) :
    y ∈ frontier edges q1 visited ↔
      (∃ x ∈ q1, AdjP edges x y) ∧ y ∉ visited := by
  induction q1 generalizing visited with
  | nil => simp [frontier]
  | cons x xs ih =>
    rw [frontier]
    constructor
    · intro hy
      rcases List.mem_append.1 hy with h1 | h1
      · have h2 := (discoverAll_mem_adj _ _ _ _).1 h1
        exact ⟨⟨x, List.mem_cons_self _ _, h2.1⟩, h2.2⟩
      · obtain ⟨⟨w, hw, hadj⟩, hnv⟩ := (ih _).1 h1
        exact ⟨⟨w, List.mem_cons_of_mem _ hw, hadj⟩,
          fun hv => hnv (List.mem_append.2 (Or.inr hv))⟩
    · rintro ⟨⟨w, hw, hadj⟩, hnv⟩
      by_cases hyf : y ∈ discoverAll edges x visited
      · exact List.mem_append.2 (Or.inl hyf)
      · refine List.mem_append.2 (Or.inr ((ih _).2 ⟨⟨w, ?_, hadj⟩, ?_⟩))
        · rcases List.mem_cons.1 hw with h4 | h4
          · subst h4
            exact absurd ((discoverAll_mem_adj _ _ _ _).2 ⟨hadj, hnv⟩) hyf
          · exact h4
        · intro hv
          rcases List.mem_append.1 hv with h5 | h5
          · exact hyf h5
          · exact hnv h5

theorem frontier_nodup (edges : List (String × HyperEdge))
    (q1 : List String) (visited : List String) :
    (frontier edges q1 visited).Nodup := by
  induction q1 generalizing visited with
  | nil => simp [frontier]
  | cons x xs ih =>
    rw [frontier]
    refine List.Nodup.append (discoverAll_nodup _ _ _) (ih _) ?_
    intro a haf had
    exact ((frontier_mem _ _ _ _).1 had).2 (List.mem_append.2 (Or.inl haf))

theorem reachable_iff (edges : List (String × HyperEdge))
    (source y : String) :
    y ∈ get_reachable_nodes edges source 2 ↔
      within2B edges source y = true := by
  rw [get_reachable_nodes_eq, List.mem_append, discoverAll_mem_adj,
      frontier_mem]
  unfold within2B
  simp only [Bool.or_eq_true, Bool.and_eq_true, decide_eq_true_eq,
    List.any_eq_true]
  constructor
  · rintro (⟨hadj, _⟩ | ⟨⟨m, hm, hadj2⟩, hnv⟩)
    · exact Or.inl hadj
    · have hmAdj : AdjP edges source m :=
        ((discoverAll_mem_adj _ _ _ _).1 hm).1
      have hysrc : y ≠ source := by
        intro hy
        subst hy
        exact hnv (List.mem_append.2 (Or.inr (List.mem_singleton.2 rfl)))
      obtain ⟨hne0, q, hq, hsq, hqm⟩ := hmAdj
      exact Or.inr ⟨hysrc, m, (mem_allMembers _ _).2 ⟨q, hq, hqm⟩,
        ⟨hne0, q, hq, hsq, hqm⟩, hadj2⟩
  · rintro (hadj | ⟨hysrc, m, _, hadj1, hadj2⟩)
    · refine Or.inl ⟨hadj, ?_⟩
      intro hv
      exact hadj.1 (List.mem_singleton.1 hv).symm
    · by_cases hyf : AdjP edges source y
      · refine Or.inl ⟨hyf, ?_⟩
        intro hv
        exact hyf.1 (List.mem_singleton.1 hv).symm
      · refine Or.inr ⟨⟨m, (discoverAll_mem_adj _ _ _ _).2 ⟨hadj1, ?_⟩,
          hadj2⟩, ?_⟩
        · intro hv
          exact hadj1.1 (List.mem_singleton.1 hv).symm
        · intro hv
          rcases List.mem_append.1 hv with h5 | h5
          · exact hyf ((discoverAll_mem_adj _ _ _ _).1 h5).1
          · exact hysrc (List.mem_singleton.1 h5)

theorem source_not_mem_reachable (edges : List (String × HyperEdge))
    (source : String) :
    source ∉ get_reachable_nodes edges source 2 := by
  intro h
  have h2 := (reachable_iff edges source source).1 h
  unfold within2B at h2
  simp [AdjP] at h2

theorem reachable_nodup (edges : List (String × HyperEdge))
    (source : String) : (get_reachable_nodes edges source 2).Nodup := by
  rw [get_reachable_nodes_eq]
  refine List.Nodup.append (discoverAll_nodup _ _ _)
    (frontier_nodup _ _ _) ?_
  intro a haf had
  exact ((frontier_mem _ _ _ _).1 had).2 (List.mem_append.2 (Or.inl haf))

theorem within2_ne (edges : List (String × HyperEdge)) (src y : String)
    (h : within2B edges src y = true) : y ≠ src := by
  unfold within2B at h
  simp only [Bool.or_eq_true, Bool.and_eq_true, decide_eq_true_eq,
    List.any_eq_true] at h
  rcases h with h1 | h1
  · exact Ne.symm h1.1
  · exact h1.1

theorem within2_mem_edge (edges : List (String × HyperEdge))
    (src y : String) (h : within2B edges src y = true) :
    ∃ p ∈ edges, y ∈ p.2.connected_nodes := by
  unfold within2B at h
  simp only [Bool.or_eq_true, Bool.and_eq_true, decide_eq_true_eq,
    List.any_eq_true] at h
  rcases h with h1 | ⟨_, m, _, _, hadj2m⟩
  · obtain ⟨_, q, hq, _, hqy⟩ := h1
    exact ⟨q, hq, hqy⟩
  · obtain ⟨_, q, hq, _, hqy⟩ := hadj2m
    exact ⟨q, hq, hqy⟩

theorem mapFind_foldl_mapUpdate_not_mem {α : Type} (g : α → α)
    (tids : List String) (m : List (String × α)) (y : String)
    (h : y ∉ tids) :
    mapFind (tids.foldl (fun acc tid => mapUpdate acc tid g) m) y
      = mapFind m y := by
  induction tids generalizing m with
  | nil => rfl
  | cons t rest ih =>
    simp only [List.mem_cons, not_or] at h
    rw [List.foldl_cons, ih _ h.2, mapFind_mapUpdate_ne _ _ _ _ h.1]

theorem mapFind_foldl_mapUpdate_mem {α : Type} (g : α → α)
    (tids : List String) (m : List (String × α)) (y : String)
    (hnd : tids.Nodup) (h : y ∈ tids) :
    mapFind (tids.foldl (fun acc tid => mapUpdate acc tid g) m) y
      = (mapFind m y).map g := by
  induction tids generalizing m with
  | nil => simp at h
  | cons t rest ih =>
    rw [List.foldl_cons]
    rcases List.mem_cons.1 h with h1 | h1
    · subst h1
      have hnmem : y ∉ rest := (List.nodup_cons.1 hnd).1
      rw [mapFind_foldl_mapUpdate_not_mem g rest _ y hnmem,
          mapFind_mapUpdate_self]
    · have hne : y ≠ t := fun hh =>
        (List.nodup_cons.1 hnd).1 (hh ▸ h1)
      rw [ih (mapUpdate m t g) (List.nodup_cons.1 hnd).2 h1,
          mapFind_mapUpdate_ne _ _ _ _ hne]

/-- C5: `propagate_activation` is a no-op for an absent source;
otherwise it overwrites the source activation with exactly `a`, adds
exactly `a * 0.7` to the current activation of every node within 2 hops
of hyperedge co-membership, and leaves every other node unchanged. -/
theorem C5_propagate_activation :
    (∀ s source a, mapContains s.nodes source = false →
      propagate_activation s source a = s) ∧
    (∀ s source a, EdgeConsistent s → mapContains s.nodes source = true →
      get_node_activation (propagate_activation s source a) source = a ∧
      (∀ y, within2B s.edges source y = true →
        get_node_activation (propagate_activation s source a) y
          = get_node_activation s y + a * (7/10)) ∧
      (∀ y, y ≠ source → within2B s.edges source y = false →
        get_node_activation (propagate_activation s source a) y
          = get_node_activation s y)) := by
  constructor
  · intro s source a hc
    have hfind : mapFind s.nodes source = none := by
      unfold mapContains at hc
      cases hf : mapFind s.nodes source with
      | none => rfl
      | some n => rw [hf] at hc; simp at hc
    unfold propagate_activation
    rw [hfind]
  · intro s source a hec hc
    obtain ⟨n0, hn0⟩ : ∃ n, mapFind s.nodes source = some n := by
      unfold mapContains at hc
      cases hf : mapFind s.nodes source with
      | none => rw [hf] at hc; simp at hc
      | some n => exact ⟨n, rfl⟩
    have hnodes : (propagate_activation s source a).nodes
        = (get_reachable_nodes s.edges source 2).foldl
            (fun m tid => mapUpdate m tid
              (fun n => { n with
                activation_level := n.activation_level + a * (7/10) }))
            (mapUpdate s.nodes source
              (fun n => { n with activation_level := a })) := by
      unfold propagate_activation
      rw [hn0]
    refine ⟨?_, ?_, ?_⟩
    · unfold get_node_activation
      rw [hnodes,
          mapFind_foldl_mapUpdate_not_mem _ _ _ _
            (source_not_mem_reachable s.edges source),
          mapFind_mapUpdate_self, hn0]
      simp
    · intro y hy
      have hymem : y ∈ get_reachable_nodes s.edges source 2 :=
        (reachable_iff _ _ _).2 hy
      have hyne : y ≠ source := within2_ne _ _ _ hy
      obtain ⟨p, hp, hyp⟩ := within2_mem_edge _ _ _ hy
      obtain ⟨ny, hny⟩ : ∃ n, mapFind s.nodes y = some n := by
        have hyc := hec p hp y hyp
        unfold mapContains at hyc
        cases hf : mapFind s.nodes y with
        | none => rw [hf] at hyc; simp at hyc
        | some n => exact ⟨n, rfl⟩
      unfold get_node_activation
      rw [hnodes,
          mapFind_foldl_mapUpdate_mem _ _ _ _
            (reachable_nodup s.edges source) hymem,
          mapFind_mapUpdate_ne _ _ _ _ hyne, hny]
      simp
    · intro y hyne hyf
      have hynot : y ∉ get_reachable_nodes s.edges source 2 := by
        intro hm
        rw [(reachable_iff _ _ _).1 hm] at hyf
        exact Bool.noConfusion hyf
      unfold get_node_activation
      rw [hnodes,
          mapFind_foldl_mapUpdate_not_mem _ _ _ _ hynot,
          mapFind_mapUpdate_ne _ _ _ _ hyne]

/-- Witness for C5 on the path network node1—node2—node3—node4:
propagating 1.0 from node1 sets node1 to 1.0, raises node2 (one hop) by
0.7, and leaves node4 (three hops away) unchanged. -/
theorem C5_propagate_activation_witness :
    get_node_activation (propagate_activation pathS "node1" 1) "node1"
      = 1 ∧
    get_node_activation (propagate_activation pathS "node1" 1) "node2"
      = get_node_activation pathS "node2" + 1 * (7/10) ∧
    get_node_activation (propagate_activation pathS "node1" 1) "node4"
      = get_node_activation pathS "node4" :=
  ⟨(C5_propagate_activation.2 pathS "node1" 1 (by decide) (by decide)).1,
   (C5_propagate_activation.2 pathS "node1" 1 (by decide)
      (by decide)).2.1 "node2" (by decide),
   (C5_propagate_activation.2 pathS "node1" 1 (by decide)
      (by decide)).2.2 "node4" (by decide) (by decide)⟩

end Cognitive
